import Mathlib

/-
  Shallow embedding of the consistency core of the tms-backend repository:
  the project / project-language / translation-key / translation-value
  domain model and its guarded mutation operations
  (apps/projects/models.py, apps/projects/utils.py,
   apps/translations/models.py, apps/translations/utils.py,
   apps/core/choices.py, apps/core/exceptions.py).

  Database tables are embedded as lists of rows; primary keys as Nat;
  every operation is a pure function returning Except: an `Except.error`
  outcome corresponds to a raised exception, and (because the mutating
  operations run under transaction.atomic) leaves the database unchanged.
-/

deriving instance DecidableEq for Except

namespace TMS

/-- Codepoint-lexicographic comparison of character lists; this is the
ordering Python uses on strings (all strings compared here are ASCII
language codes). -/
def strLeChars : List Char → List Char → Bool
  | [], _ => true
  | _ :: _, [] => false
  | a :: as, b :: bs =>
      if a.toNat < b.toNat then true
      else if b.toNat < a.toNat then false
      else strLeChars as bs

/-- Python string comparison s <= t. -/
def pyStrLe (s t : String) : Bool :=
  strLeChars s.toList t.toList

/-- Python str.lower on the ASCII strings handled here. -/
def pyLower (s : String) : String :=
  String.mk (s.toList.map Char.toLower)

/-- Language codes of apps/core/choices.py (LanguageChoices values). -/
def languageChoices : List String :=
  ["uk", "en", "pl", "de", "fr", "es", "it", "pt", "nl", "cs", "sk", "ro",
   "hu", "bg", "el", "sv", "da", "no", "fi",
   "ru", "be", "hr", "sr", "sl",
   "zh-CN", "zh-TW", "ja", "ko", "vi", "th", "hi", "ar", "he", "tr",
   "id", "ms", "fa", "bn", "ur", "sw"]

/-- Membership in the language catalog (Django choices validation). -/
def isValidLanguage (code : String) : Bool :=
  languageChoices.contains code

/-- A row of the ProjectLanguage table (apps/projects/models.py). -/
structure PLRow where
  pk : Nat
  project : Nat
  language : String
  is_base_language : Bool
deriving DecidableEq, Repr

/-- A row of the TranslationKey table (apps/translations/models.py). -/
structure TKRow where
  pk : Nat
  project : Nat
  key : String
  description : String
deriving DecidableEq, Repr

/-- A row of the TranslationValue table (apps/translations/models.py). -/
structure TVRow where
  pk : Nat
  translation_key : Nat
  language : String
  value : String
deriving DecidableEq, Repr

/-- The exception kinds raised by the embedded operations
(apps/core/exceptions.py plus django ValidationError; indexError models
an unguarded Python IndexError, doesNotExist a Django DoesNotExist). -/
inductive Err where
  | validation (msg : String)
  | projectError (msg : String)
  | translationError (msg : String) (extra : List String)
  | indexError
  | doesNotExist
deriving DecidableEq, Repr

/-- ProjectLanguage.objects.filter(project=project).exists() -/
def hasProject (pls : List PLRow) (project : Nat) : Bool :=
  pls.any (fun r => r.project == project)

/-- Predicate: row r is a base-language row of the given project. -/
def isBaseOf (project : Nat) (r : PLRow) : Bool :=
  r.project == project && r.is_base_language

/-- Number of base-language rows of a project. -/
def baseCount (pls : List PLRow) (project : Nat) : Nat :=
  pls.countP (isBaseOf project)

/-- ProjectLanguage.objects.filter(project=project, is_base_language=True).exists() -/
def hasBase (pls : List PLRow) (project : Nat) : Bool :=
  pls.any (isBaseOf project)

/-- The per-row effect of the demote update. -/
def demoteRow (project : Nat) (r : PLRow) : PLRow :=
  if r.project == project && r.is_base_language
  then { r with is_base_language := false } else r

/-- filter(project=project, is_base_language=True).update(is_base_language=False) -/
def demoteBase (pls : List PLRow) (project : Nat) : List PLRow :=
  pls.map (demoteRow project)

/-- full_clean of a new ProjectLanguage instance, run against the current
table state: clean_fields (language must be a catalog choice), the custom
clean method of ProjectLanguage (a non-base row may only be saved when the
project already has a base row), validate_unique on (project, language).
The fresh instance has a fresh uuid pk, so the exclude(pk=self.pk) inside
clean excludes no stored row. -/
def projectLanguageFullClean (pls : List PLRow) (project : Nat)
    (language : String) (is_base : Bool) : Option Err :=
  if !isValidLanguage language then
    some (.validation "Value is not a valid choice.")
  else if !hasBase pls project && !is_base then
    some (.validation
      "This project does not have a base language set. Please set a base language")
  else if pls.any (fun r => r.project == project && r.language == language) then
    some (.validation "Project Language with this Project and Language already exists.")
  else none

/-- project_language_add of apps/projects/utils.py. Returns the new table
state and the created row; nextPk is the fresh primary key. -/
def project_language_add (pls : List PLRow) (nextPk : Nat) (project : Nat)
    (language : String) (is_base_language : Bool := false) :
    Except Err (List PLRow × PLRow) :=
  let has_languages := hasProject pls project
  let is_base := if !has_languages then true else is_base_language
  let pls1 := if is_base then demoteBase pls project else pls
  match projectLanguageFullClean pls1 project language is_base with
  | some e => .error e
  | none =>
      let row : PLRow := ⟨nextPk, project, language, is_base⟩
      .ok (pls1 ++ [row], row)

def baseLanguageErrMsg : String :=
  "Cannot delete the base language. First set another language as base."

def lastLanguageErrMsg : String :=
  "Cannot delete the last language of a project."

/-- project_language_remove of apps/projects/utils.py. The in-memory
instance pl is inspected for is_base_language and project; deletion is by
primary key. (ProjectLanguage.delete re-checks the same two conditions
with ValidationError; both already hold false on the success path.) -/
def project_language_remove (pls : List PLRow) (pl : PLRow) :
    Except Err (List PLRow) :=
  if pl.is_base_language then
    .error (.projectError baseLanguageErrMsg)
  else if !pls.any (fun r => r.project == pl.project && r.pk != pl.pk) then
    .error (.projectError lastLanguageErrMsg)
  else
    .ok (pls.filter (fun r => r.pk != pl.pk))

/-- The table state after project_language_remove: on error the atomic
transaction rolls back and the table is unchanged. -/
def project_language_remove_apply (pls : List PLRow) (pl : PLRow) : List PLRow :=
  match project_language_remove pls pl with
  | .ok pls' => pls'
  | .error _ => pls

/-- The per-row effect of project_language_set_base on rows of the target
project: first the demote update (base rows of the project drop the flag),
then the promote update (the row with the target pk gains it). -/
def setBaseRow (pl : PLRow) (r : PLRow) : PLRow :=
  if r.project == pl.project && r.pk == pl.pk then
    { r with is_base_language := true }
  else if r.project == pl.project && r.is_base_language then
    { r with is_base_language := false }
  else r

/-- project_language_set_base of apps/projects/utils.py. No-op when the
instance is already base; otherwise demotes the base rows of the project,
promotes the row with the instance pk, and refreshes the instance from the
table (DoesNotExist when the pk is gone). -/
def project_language_set_base (pls : List PLRow) (pl : PLRow) :
    Except Err (List PLRow × PLRow) :=
  if pl.is_base_language then
    .ok (pls, pl)
  else
    let pls2 := pls.map (setBaseRow pl)
    match pls2.find? (fun r => r.pk == pl.pk) with
    | some r => .ok (pls2, r)
    | none => .error .doesNotExist

/-- An entry of languages_data in project_language_bulk_add; a missing
is_base_language dict key reads as False via item.get. -/
structure BulkItem where
  language : String
  is_base_language : Bool := false
deriving DecidableEq, Repr

/-- The creation loop of project_language_bulk_add: each item is
full_clean-ed against the table state including the earlier items of the
batch, then saved. Returns final table, next pk, created rows. -/
def bulkInsertLoop (project : Nat) :
    List BulkItem → List PLRow → Nat → Except Err (List PLRow × Nat × List PLRow)
  | [], pls, nextPk => .ok (pls, nextPk, [])
  | item :: rest, pls, nextPk =>
    match projectLanguageFullClean pls project item.language item.is_base_language with
    | some e => .error e
    | none =>
        (bulkInsertLoop project rest
            (pls ++ [⟨nextPk, project, item.language, item.is_base_language⟩])
            (nextPk + 1)).map
          (fun x =>
            (x.1, x.2.1,
              (⟨nextPk, project, item.language, item.is_base_language⟩ : PLRow) :: x.2.2))

/-- project_language_bulk_add of apps/projects/utils.py. With an empty
items list on a project without languages, the statement
languages_data[0]["is_base_language"] = True raises IndexError. -/
def project_language_bulk_add (pls : List PLRow) (nextPk : Nat) (project : Nat)
    (languages_data : List BulkItem) :
    Except Err (List PLRow × Nat × List PLRow) :=
  let base_entries := languages_data.filter (fun i => i.is_base_language)
  if base_entries.length > 1 then
    .error (.projectError "Only one language can be set as base.")
  else
    let has_languages := hasProject pls project
    let has_new_base := base_entries.length == 1
    if !has_languages && !has_new_base then
      match languages_data with
      | [] => .error .indexError
      | item :: rest =>
          bulkInsertLoop project ({ item with is_base_language := true } :: rest)
            (demoteBase pls project) nextPk
    else
      bulkInsertLoop project languages_data
        (if has_new_base then demoteBase pls project else pls) nextPk

/-- Character class [a-z0-9] of the key regex. -/
def isKeyChar (c : Char) : Bool :=
  (decide ('a' ≤ c) && decide (c ≤ 'z')) || (decide ('0' ≤ c) && decide (c ≤ '9'))

/-- Separator class [._] of the key regex. -/
def isSepChar (c : Char) : Bool :=
  c == '.' || c == '_'

/-- Matcher for the anchored regex of key_validator in
apps/translations/models.py: [a-z0-9]+ segments joined by single . or _
separators (zero or more further segments). The flag is true when the
next character must start a segment. -/
def keyAux : List Char → Bool → Bool
  | [], expectSeg => !expectSeg
  | c :: cs, true => isKeyChar c && keyAux cs false
  | c :: cs, false =>
      if isKeyChar c then keyAux cs false
      else isSepChar c && keyAux cs true

/-- key_validator of apps/translations/models.py: the anchored regex
test on the whole key string. -/
def key_validator (s : String) : Bool :=
  keyAux s.toList true

/-- The key format claimed by the spec and by the TranslationKey docstring
and help text: the same segment pattern but with at least two segments,
that is at least one . or _ separator. Modelled from the spec for the
refinement comparison with key_validator. -/
def specKeyFormat (s : String) : Bool :=
  key_validator s && s.toList.any isSepChar

/-- full_clean of a TranslationKey instance: clean_fields runs the regex
validator and the max_length 255 bound on key (blank key also fails the
regex), the custom clean lower-cases again (idempotent at this point),
validate_unique checks (key, project), excluding the own pk. -/
def translationKeyFullClean (tks : List TKRow) (selfPk : Nat) (project : Nat)
    (key : String) : Option Err :=
  if !key_validator key then
    some (.validation
      "Use lowercase letters and digits separated by underscore or dot.")
  else if key.length > 255 then
    some (.validation "Ensure this value has at most 255 characters.")
  else if tks.any (fun r => r.pk != selfPk && r.project == project && r.key == key) then
    some (.validation "Translation Key with this Key and Project already exists.")
  else none

/-- translation_key_create of apps/translations/utils.py: lower-cases the
key, then full_clean and save. -/
def translation_key_create (tks : List TKRow) (nextPk : Nat) (project : Nat)
    (key : String) (description : String := "") :
    Except Err (List TKRow × TKRow) :=
  let key := pyLower key
  match translationKeyFullClean tks nextPk project key with
  | some e => .error e
  | none =>
      let row : TKRow := ⟨nextPk, project, key, description⟩
      .ok (tks ++ [row], row)

/-- translation_key_update of apps/translations/utils.py: partial update,
no write when both fields are absent. The Bool reports whether a save
happened. -/
def translation_key_update (tks : List TKRow) (tk : TKRow)
    (key : Option String) (description : Option String) :
    Except Err (List TKRow × TKRow × Bool) :=
  let tk1 := match key with
    | some k => { tk with key := pyLower k }
    | none => tk
  let tk2 := match description with
    | some d => { tk1 with description := d }
    | none => tk1
  if key.isNone && description.isNone then
    .ok (tks, tk, false)
  else
    match translationKeyFullClean tks tk.pk tk2.project tk2.key with
    | some e => .error e
    | none =>
        .ok (tks.map (fun r => if r.pk == tk.pk then tk2 else r), tk2, true)

/-- translation_key_delete: deletes the key row; the values cascade
(handled at the step level, where both tables are in scope). -/
def translation_key_delete (tks : List TKRow) (tk : TKRow) : List TKRow :=
  tks.filter (fun r => r.pk != tk.pk)

/-- _validate_language_belongs_to_project of apps/translations/utils.py:
ProjectLanguage.objects.filter(project=key project, language=language).exists() -/
def configuredLanguage (pls : List PLRow) (project : Nat) (language : String) : Bool :=
  pls.any (fun r => r.project == project && r.language == language)

def notConfiguredMsg : String :=
  "Language is not configured for the project."

def someNotConfiguredMsg : String :=
  "Some languages are not configured for this project."

/-- full_clean of a TranslationValue instance: clean_fields checks the
language against the catalog choices and the value against blank=False
(a TextField without blank=True rejects the empty string); validate_unique
checks (translation_key, language) excluding the own pk. -/
def translationValueFullClean (tvs : List TVRow) (selfPk : Nat)
    (translation_key : Nat) (language : String) (value : String) : Option Err :=
  if !isValidLanguage language then
    some (.validation "Value is not a valid choice.")
  else if value == "" then
    some (.validation "This field cannot be blank.")
  else if tvs.any (fun r =>
      r.pk != selfPk && r.translation_key == translation_key && r.language == language) then
    some (.validation
      "Translation Value with this Translation key and Language already exists.")
  else none

/-- translation_value_create of apps/translations/utils.py: validate the
language against the configured project languages, then full_clean and
save. -/
def translation_value_create (pls : List PLRow) (tvs : List TVRow) (nextPk : Nat)
    (tk : TKRow) (language : String) (value : String) :
    Except Err (List TVRow × TVRow) :=
  if !configuredLanguage pls tk.project language then
    .error (.translationError notConfiguredMsg [language])
  else
    match translationValueFullClean tvs nextPk tk.pk language value with
    | some e => .error e
    | none =>
        let row : TVRow := ⟨nextPk, tk.pk, language, value⟩
        .ok (tvs ++ [row], row)

/-- The table state after translation_value_create: a raised error leaves
the table unchanged. -/
def translation_value_create_apply (pls : List PLRow) (tvs : List TVRow)
    (nextPk : Nat) (tk : TKRow) (language : String) (value : String) : List TVRow :=
  match translation_value_create pls tvs nextPk tk language value with
  | .ok (tvs', _) => tvs'
  | .error _ => tvs

/-- translation_value_update of apps/translations/utils.py. -/
def translation_value_update (tvs : List TVRow) (tv : TVRow) (value : String) :
    Except Err (List TVRow × TVRow) :=
  let tv1 := { tv with value := value }
  match translationValueFullClean tvs tv.pk tv.translation_key tv.language value with
  | some e => .error e
  | none =>
      .ok (tvs.map (fun r => if r.pk == tv.pk then tv1 else r), tv1)

/-- translation_value_delete of apps/translations/utils.py. -/
def translation_value_delete (tvs : List TVRow) (tv : TVRow) : List TVRow :=
  tvs.filter (fun r => r.pk != tv.pk)

/-- Insertion into a ≤-sorted list of strings. -/
def insertSorted (s : String) : List String → List String
  | [] => [s]
  | t :: ts => if pyStrLe s t then s :: t :: ts else t :: insertSorted s ts

/-- Insertion sort on strings, used to model Python sorted(). -/
def sortStrings (l : List String) : List String :=
  l.foldr insertSorted []

/-- sorted(set(xs)): duplicates removed, ascending order. -/
def sortedDedup (l : List String) : List String :=
  sortStrings l.dedup

/-- The value written for an existing row in
translation_value_bulk_update: the loop mutates the one cached instance
per language, so the value of the last item with that language wins. -/
def lastValueFor (values_data : List (String × String)) (l : String) : String :=
  match (values_data.filter (fun p => p.1 == l)).getLast? with
  | some p => p.2
  | none => ""

/-- translation_value_bulk_update of apps/translations/utils.py.
values_data items are (language, value) pairs. First the batch language
check (sorted invalid codes in the error extra), then the split into
updates of existing (translation_key, language) rows and creations via
bulk_create; two created items with the same language would violate the
unique constraint inside bulk_create, modelled as a validation error.
Returns (table, created rows, updated rows). -/
def translation_value_bulk_update (pls : List PLRow) (tvs : List TVRow)
    (nextPk : Nat) (tk : TKRow) (values_data : List (String × String)) :
    Except Err (List TVRow × List TVRow × List TVRow) :=
  let languages := values_data.map Prod.fst
  let invalid := sortedDedup
    (languages.filter (fun l => !configuredLanguage pls tk.project l))
  if !invalid.isEmpty then
    .error (.translationError someNotConfiguredMsg invalid)
  else
    let isExisting := fun (l : String) =>
      tvs.any (fun r => r.translation_key == tk.pk && r.language == l)
    let to_create_items := values_data.filter (fun p => !isExisting p.1)
    if !(to_create_items.map Prod.fst).Nodup then
      .error (.validation "UNIQUE constraint failed inside bulk_create.")
    else
      let created := to_create_items.enum.map
        (fun p => (⟨nextPk + p.1, tk.pk, p.2.1, p.2.2⟩ : TVRow))
      let tvs' := tvs.map (fun r =>
        if r.translation_key == tk.pk && languages.contains r.language
        then { r with value := lastValueFor values_data r.language } else r)
      let updated := (values_data.filter (fun p => isExisting p.1)).filterMap
        (fun p => tvs'.find? (fun r => r.translation_key == tk.pk && r.language == p.1))
      .ok (tvs' ++ created, created, updated)

/-- The table state after translation_value_bulk_update: the atomic
transaction rolls back on error. -/
def translation_value_bulk_apply (pls : List PLRow) (tvs : List TVRow)
    (nextPk : Nat) (tk : TKRow) (values_data : List (String × String)) : List TVRow :=
  match translation_value_bulk_update pls tvs nextPk tk values_data with
  | .ok (tvs', _, _) => tvs'
  | .error _ => tvs

/-- A row of the Project table (apps/projects/models.py). -/
structure Project where
  pk : Nat
  slug : String
  name : String
  description : String
deriving DecidableEq, Repr

/-- Character class of the Django slug regex [-a-zA-Z0-9_]. -/
def isSlugChar (c : Char) : Bool :=
  c == '-' || c == '_' ||
  (decide ('a' ≤ c) && decide (c ≤ 'z')) ||
  (decide ('A' ≤ c) && decide (c ≤ 'Z')) ||
  (decide ('0' ≤ c) && decide (c ≤ '9'))

/-- The Django SlugField format test (anchored [-a-zA-Z0-9_]+). -/
def isValidSlug (s : String) : Bool :=
  !s.isEmpty && s.toList.all isSlugChar

/-- full_clean of a Project instance: clean_fields checks slug format,
slug max_length 100, name blank=False and max_length 255 (description has
blank=True); validate_unique checks slug against the other rows. -/
def projectFullClean (projects : List Project) (p : Project) : Option Err :=
  if !isValidSlug p.slug then
    some (.validation "Enter a valid slug.")
  else if p.slug.length > 100 then
    some (.validation "Ensure this value has at most 100 characters.")
  else if p.name == "" then
    some (.validation "This field cannot be blank.")
  else if p.name.length > 255 then
    some (.validation "Ensure this value has at most 255 characters.")
  else if projects.any (fun q => q.pk != p.pk && q.slug == p.slug) then
    some (.validation "Project with this Slug already exists.")
  else none

/-- The in-memory field assignments of project_update: each supplied
(non-None) field overwrites the previous value. -/
def applyProjectUpdates (project : Project)
    (slug : Option String) (name : Option String) (description : Option String) :
    Project :=
  { project with
    slug := slug.getD project.slug,
    name := name.getD project.name,
    description := description.getD project.description }

/-- project_update of apps/projects/utils.py: only non-None fields are
assigned; when no field was supplied the function returns before
full_clean and save. The Bool reports whether a save happened. -/
def project_update (projects : List Project) (project : Project)
    (slug : Option String) (name : Option String) (description : Option String) :
    Except Err (Project × Bool) :=
  if slug.isNone && name.isNone && description.isNone then
    .ok (project, false)
  else
    match projectFullClean projects (applyProjectUpdates project slug name description) with
    | some e => .error e
    | none => .ok (applyProjectUpdates project slug name description, true)

/-- The mutable database state shared by the language, key and value
operations. Projects themselves are referenced by id. -/
structure DB where
  pls : List PLRow
  plNext : Nat
  tks : List TKRow
  tkNext : Nat
  tvs : List TVRow
  tvNext : Nat
deriving DecidableEq, Repr

/-- The guarded mutation operations of the consistency core that touch the
ProjectLanguage, TranslationKey and TranslationValue tables. -/
inductive Op where
  | addLanguage (project : Nat) (language : String) (is_base : Bool)
  | removeLanguage (pl : PLRow)
  | setBaseLanguage (pl : PLRow)
  | bulkAddLanguages (project : Nat) (items : List BulkItem)
  | createKey (project : Nat) (key : String) (description : String)
  | updateKey (tk : TKRow) (key : Option String) (description : Option String)
  | deleteKey (tk : TKRow)
  | createValue (tk : TKRow) (language : String) (value : String)
  | updateValue (tv : TVRow) (value : String)
  | deleteValue (tv : TVRow)
  | bulkUpsertValues (tk : TKRow) (values_data : List (String × String))
deriving Repr

/-- One operation applied to the database; an error models a raised
exception with full rollback. -/
def step (op : Op) (db : DB) : Except Err DB :=
  match op with
  | .addLanguage project language is_base =>
      match project_language_add db.pls db.plNext project language is_base with
      | .error e => .error e
      | .ok (pls', _) => .ok { db with pls := pls', plNext := db.plNext + 1 }
  | .removeLanguage pl =>
      match project_language_remove db.pls pl with
      | .error e => .error e
      | .ok pls' => .ok { db with pls := pls' }
  | .setBaseLanguage pl =>
      match project_language_set_base db.pls pl with
      | .error e => .error e
      | .ok (pls', _) => .ok { db with pls := pls' }
  | .bulkAddLanguages project items =>
      match project_language_bulk_add db.pls db.plNext project items with
      | .error e => .error e
      | .ok (pls', next', _) => .ok { db with pls := pls', plNext := next' }
  | .createKey project key description =>
      match translation_key_create db.tks db.tkNext project key description with
      | .error e => .error e
      | .ok (tks', _) => .ok { db with tks := tks', tkNext := db.tkNext + 1 }
  | .updateKey tk key description =>
      match translation_key_update db.tks tk key description with
      | .error e => .error e
      | .ok (tks', _, _) => .ok { db with tks := tks' }
  | .deleteKey tk =>
      .ok { db with
        tks := translation_key_delete db.tks tk,
        tvs := db.tvs.filter (fun r => r.translation_key != tk.pk) }
  | .createValue tk language value =>
      match translation_value_create db.pls db.tvs db.tvNext tk language value with
      | .error e => .error e
      | .ok (tvs', _) => .ok { db with tvs := tvs', tvNext := db.tvNext + 1 }
  | .updateValue tv value =>
      match translation_value_update db.tvs tv value with
      | .error e => .error e
      | .ok (tvs', _) => .ok { db with tvs := tvs' }
  | .deleteValue tv =>
      .ok { db with tvs := translation_value_delete db.tvs tv }
  | .bulkUpsertValues tk values_data =>
      match translation_value_bulk_update db.pls db.tvs db.tvNext tk values_data with
      | .error e => .error e
      | .ok (tvs', created, _) =>
          .ok { db with tvs := tvs', tvNext := db.tvNext + created.length }

/-- The single-base invariant: every project that owns at least one
ProjectLanguage row owns exactly one with is_base_language = true. -/
def invariantOneBase (pls : List PLRow) : Prop :=
  ∀ p ∈ pls.map PLRow.project, baseCount pls p = 1

instance (pls : List PLRow) : Decidable (invariantOneBase pls) :=
  inferInstanceAs (Decidable (∀ p ∈ pls.map PLRow.project, baseCount pls p = 1))

/-- Consistency of the in-memory instance an operation carries with the
stored table: removeLanguage and setBaseLanguage read fields of the passed
row object, which must mirror a stored row. -/
def opConsistent (op : Op) (db : DB) : Prop :=
  match op with
  | .removeLanguage pl => pl ∈ db.pls
  | .setBaseLanguage pl => pl ∈ db.pls
  | _ => True

/-! Helper lemmas about the ProjectLanguage table. -/

/-! Helper lemmas about the ProjectLanguage table. -/

theorem hasProject_iff {pls : List PLRow} {p : Nat} :
    hasProject pls p = true ↔ p ∈ pls.map PLRow.project := by
  simp only [hasProject, List.any_eq_true, List.mem_map, beq_iff_eq]

theorem invariantOneBase_iff {pls : List PLRow} :
    invariantOneBase pls ↔ ∀ p, hasProject pls p = true → baseCount pls p = 1 := by
  constructor
  · intro h p hp
    exact h p (hasProject_iff.mp hp)
  · intro h p hp
    exact h p (hasProject_iff.mpr hp)

theorem baseCount_append {l l' : List PLRow} {p : Nat} :
    baseCount (l ++ l') p = baseCount l p + baseCount l' p := by
  simp [baseCount, List.countP_append]

theorem baseCount_cons {r : PLRow} {l : List PLRow} {p : Nat} :
    baseCount (r :: l) p = baseCount l p + (if isBaseOf p r then 1 else 0) := by
  simp [baseCount, List.countP_cons]

theorem hasProject_append {l l' : List PLRow} {p : Nat} :
    hasProject (l ++ l') p = (hasProject l p || hasProject l' p) := by
  simp [hasProject, List.any_append]

theorem hasBase_imp_hasProject {pls : List PLRow} {p : Nat}
    (h : hasBase pls p = true) : hasProject pls p = true := by
  simp only [hasBase, List.any_eq_true, isBaseOf, Bool.and_eq_true] at h
  obtain ⟨r, hr, hproj, _⟩ := h
  simp only [hasProject, List.any_eq_true]
  exact ⟨r, hr, hproj⟩

theorem demoteRow_project (p : Nat) (r : PLRow) :
    (demoteRow p r).project = r.project := by
  unfold demoteRow
  split <;> rfl

theorem demoteRow_pk (p : Nat) (r : PLRow) :
    (demoteRow p r).pk = r.pk := by
  unfold demoteRow
  split <;> rfl

theorem isBaseOf_demoteRow_self (p : Nat) (r : PLRow) :
    isBaseOf p (demoteRow p r) = false := by
  unfold demoteRow isBaseOf
  by_cases h : (r.project == p && r.is_base_language) = true
  · simp [h]
  · simp only [h, Bool.if_false_left]
    simpa using h

theorem isBaseOf_demoteRow_ne {p q : Nat} (hq : q ≠ p) (r : PLRow) :
    isBaseOf q (demoteRow p r) = isBaseOf q r := by
  unfold demoteRow isBaseOf
  by_cases h : (r.project == p && r.is_base_language) = true
  · have hp : r.project = p := by
      simp only [Bool.and_eq_true, beq_iff_eq] at h
      exact h.1
    have hpq : (p == q) = false := by
      simpa using Ne.symm hq
    have hb : r.is_base_language = true := by
      simp only [Bool.and_eq_true] at h
      exact h.2
    simp [h, hp, hpq, hb]
  · simp [h]

theorem baseCount_demoteBase_self (pls : List PLRow) (p : Nat) :
    baseCount (demoteBase pls p) p = 0 := by
  unfold baseCount demoteBase
  rw [List.countP_map]
  exact List.countP_eq_zero.mpr
    (fun r _ => by simp [Function.comp, isBaseOf_demoteRow_self])

theorem baseCount_demoteBase_ne {pls : List PLRow} {p q : Nat} (hq : q ≠ p) :
    baseCount (demoteBase pls p) q = baseCount pls q := by
  unfold baseCount demoteBase
  rw [List.countP_map]
  exact List.countP_congr
    (fun r _ => by simp [Function.comp, isBaseOf_demoteRow_ne hq])

theorem hasProject_demoteBase (pls : List PLRow) (p q : Nat) :
    hasProject (demoteBase pls p) q = hasProject pls q := by
  induction pls with
  | nil => rfl
  | cons r rest ih =>
      show ((demoteRow p r).project == q || hasProject (demoteBase rest p) q)
        = (r.project == q || hasProject rest q)
      rw [ih, demoteRow_project]

theorem demoteBase_eq_self {pls : List PLRow} {p : Nat}
    (h : hasProject pls p = false) : demoteBase pls p = pls := by
  induction pls with
  | nil => rfl
  | cons r rest ih =>
      simp only [hasProject, List.any_cons, Bool.or_eq_false_iff] at h
      have h1 : demoteRow p r = r := by
        unfold demoteRow
        simp [h.1]
      have h2 : demoteBase rest p = rest := ih h.2
      show demoteRow p r :: demoteBase rest p = r :: rest
      rw [h1, h2]

theorem baseCount_eq_zero_of_no_project {pls : List PLRow} {p : Nat}
    (h : hasProject pls p = false) : baseCount pls p = 0 := by
  refine List.countP_eq_zero.mpr (fun r hr hb => ?_)
  simp only [hasProject, List.any_eq_false] at h
  simp only [isBaseOf, Bool.and_eq_true] at hb
  exact h r hr hb.1

theorem projectLanguageFullClean_none {pls : List PLRow} {project : Nat}
    {language : String} {is_base : Bool}
    (h : projectLanguageFullClean pls project language is_base = none) :
    isValidLanguage language = true ∧
    (is_base = true ∨ hasBase pls project = true) ∧
    pls.any (fun r => r.project == project && r.language == language) = false := by
  unfold projectLanguageFullClean at h
  split_ifs at h with h1 h2 h3
  refine ⟨by simpa using h1, ?_, by simpa using h3⟩
  rcases Bool.eq_false_or_eq_true is_base with hb | hb
  · exact Or.inl hb
  · right
    by_contra hc
    exact h2 (by simp [hb, Bool.eq_false_iff.mpr hc])

/-- Inserting a base row of a project after demoting the base rows of that
project keeps the single-base invariant. -/
theorem insert_base_after_demote {pls : List PLRow} {project : Nat} {row : PLRow}
    (hinv : invariantOneBase pls)
    (hrp : row.project = project) (hrb : row.is_base_language = true) :
    invariantOneBase (demoteBase pls project ++ [row]) := by
  rw [invariantOneBase_iff] at hinv ⊢
  intro q hq
  by_cases hqp : q = project
  · rw [hqp, baseCount_append, baseCount_demoteBase_self, Nat.zero_add]
    simp [baseCount, List.countP_cons, isBaseOf, hrp, hrb]
  · rw [baseCount_append, baseCount_demoteBase_ne hqp]
    have hz : baseCount [row] q = 0 := by
      simp [baseCount, List.countP_cons, isBaseOf, hrp, Ne.symm hqp]
    rw [hz, Nat.add_zero]
    apply hinv
    rw [hasProject_append] at hq
    rcases Bool.or_eq_true_iff.mp hq with hq1 | hq1
    · rwa [hasProject_demoteBase] at hq1
    · exfalso
      simp only [hasProject, List.any_cons, List.any_nil, Bool.or_false,
        beq_iff_eq, hrp] at hq1
      exact hqp hq1.symm

/-- Inserting a non-base row of a project that already has a base row
keeps the single-base invariant. -/
theorem insert_nonbase {pls : List PLRow} {project : Nat} {row : PLRow}
    (hinv : invariantOneBase pls) (hbase : hasBase pls project = true)
    (hrp : row.project = project) (hrb : row.is_base_language = false) :
    invariantOneBase (pls ++ [row]) := by
  rw [invariantOneBase_iff] at hinv ⊢
  intro q hq
  have hz : baseCount [row] q = 0 := by
    simp [baseCount, List.countP_cons, isBaseOf, hrb]
  rw [baseCount_append, hz, Nat.add_zero]
  by_cases hqp : q = project
  · rw [hqp]
    exact hinv project (hasBase_imp_hasProject hbase)
  · apply hinv
    rw [hasProject_append] at hq
    rcases Bool.or_eq_true_iff.mp hq with hq1 | hq1
    · exact hq1
    · exfalso
      simp only [hasProject, List.any_cons, List.any_nil, Bool.or_false,
        beq_iff_eq, hrp] at hq1
      exact hqp hq1.symm

/-- Invariant preservation by project_language_add: a successful add
leaves every nonempty project with exactly one base row. -/
theorem add_preserves_invariant {pls : List PLRow} {nextPk project : Nat}
    {language : String} {flag : Bool} {pls' : List PLRow} {row : PLRow}
    (hinv : invariantOneBase pls)
    (h : project_language_add pls nextPk project language flag = .ok (pls', row)) :
    invariantOneBase pls' := by
  simp only [project_language_add] at h
  by_cases hl : hasProject pls project = true
  · cases hf : flag with
    | true =>
        rw [hl, hf] at h
        simp only [Bool.not_true, Bool.false_eq_true, if_false, if_true] at h
        cases heq : projectLanguageFullClean (demoteBase pls project) project language true with
        | some e => rw [heq] at h; exact absurd h (by simp)
        | none =>
            rw [heq] at h
            simp only [Except.ok.injEq, Prod.mk.injEq] at h
            obtain ⟨hpls', _⟩ := h
            subst hpls'
            exact insert_base_after_demote hinv rfl rfl
    | false =>
        rw [hl, hf] at h
        simp only [Bool.not_true, Bool.false_eq_true, if_false] at h
        cases heq : projectLanguageFullClean pls project language false with
        | some e => rw [heq] at h; exact absurd h (by simp)
        | none =>
            rw [heq] at h
            simp only [Except.ok.injEq, Prod.mk.injEq] at h
            obtain ⟨hpls', _⟩ := h
            subst hpls'
            obtain ⟨_, hclean, _⟩ := projectLanguageFullClean_none heq
            have hbase : hasBase pls project = true := by
              rcases hclean with hc | hc
              · cases hc
              · exact hc
            exact insert_nonbase hinv hbase rfl rfl
  · have hl' : hasProject pls project = false := by
      exact Bool.eq_false_iff.mpr hl
    rw [hl'] at h
    simp only [Bool.not_false, if_true] at h
    cases heq : projectLanguageFullClean (demoteBase pls project) project language true with
    | some e => rw [heq] at h; exact absurd h (by simp)
    | none =>
        rw [heq] at h
        simp only [Except.ok.injEq, Prod.mk.injEq] at h
        obtain ⟨hpls', _⟩ := h
        subst hpls'
        exact insert_base_after_demote hinv rfl rfl

theorem hasProject_filter_imp {pls : List PLRow} {f : PLRow → Bool} {q : Nat}
    (h : hasProject (pls.filter f) q = true) : hasProject pls q = true := by
  simp only [hasProject, List.any_eq_true] at h ⊢
  obtain ⟨r, hr, hrq⟩ := h
  exact ⟨r, (List.mem_filter.mp hr).1, hrq⟩

theorem filter_ne_pk_of_not_mem {pls : List PLRow} {k : Nat}
    (h : k ∉ pls.map PLRow.pk) :
    pls.filter (fun r => r.pk != k) = pls := by
  refine List.filter_eq_self.mpr (fun r hr => ?_)
  have : r.pk ≠ k := fun hc => h (hc ▸ List.mem_map_of_mem PLRow.pk hr)
  simpa using this

theorem baseCount_filter_ne_pk {pls : List PLRow} {pl : PLRow}
    (hpk : (pls.map PLRow.pk).Nodup) (hmem : pl ∈ pls)
    (hnb : pl.is_base_language = false) (q : Nat) :
    baseCount (pls.filter (fun r => r.pk != pl.pk)) q = baseCount pls q := by
  unfold baseCount
  rw [List.countP_filter]
  refine List.countP_congr (fun x hx => ?_)
  by_cases hxp : x.pk = pl.pk
  · have hx_eq : x = pl := List.inj_on_of_nodup_map hpk hx hmem hxp
    have hfalse : isBaseOf q x = false := by
      rw [hx_eq]
      simp [isBaseOf, hnb]
    simp [hfalse]
  · have hkeep : (x.pk != pl.pk) = true := by simpa using hxp
    simp [hkeep]

/-- Invariant preservation by project_language_remove: a successful
removal of a (necessarily non-base, non-last) row keeps the single-base
invariant. -/
theorem remove_preserves_invariant {pls pls' : List PLRow} {pl : PLRow}
    (hinv : invariantOneBase pls)
    (hpk : (pls.map PLRow.pk).Nodup) (hmem : pl ∈ pls)
    (h : project_language_remove pls pl = .ok pls') :
    invariantOneBase pls' := by
  unfold project_language_remove at h
  by_cases h1 : pl.is_base_language = true
  · rw [if_pos h1] at h
    exact absurd h (by simp)
  · rw [if_neg h1] at h
    by_cases h2 : (!pls.any fun r => r.project == pl.project && r.pk != pl.pk) = true
    · rw [if_pos h2] at h
      exact absurd h (by simp)
    · rw [if_neg h2] at h
      simp only [Except.ok.injEq] at h
      subst h
      rw [invariantOneBase_iff] at hinv ⊢
      intro q hq
      rw [baseCount_filter_ne_pk hpk hmem (Bool.eq_false_iff.mpr h1) q]
      exact hinv q (hasProject_filter_imp hq)

theorem setBaseRow_project (pl r : PLRow) :
    (setBaseRow pl r).project = r.project := by
  unfold setBaseRow
  split
  · rfl
  · split <;> rfl

theorem setBaseRow_pk (pl r : PLRow) :
    (setBaseRow pl r).pk = r.pk := by
  unfold setBaseRow
  split
  · rfl
  · split <;> rfl

theorem hasProject_map_setBaseRow (pls : List PLRow) (pl : PLRow) (q : Nat) :
    hasProject (pls.map (setBaseRow pl)) q = hasProject pls q := by
  induction pls with
  | nil => rfl
  | cons r rest ih =>
      show ((setBaseRow pl r).project == q || hasProject (rest.map (setBaseRow pl)) q)
        = (r.project == q || hasProject rest q)
      rw [ih, setBaseRow_project]

theorem isBaseOf_setBaseRow_self (pl r : PLRow) :
    isBaseOf pl.project (setBaseRow pl r)
      = (r.project == pl.project && r.pk == pl.pk) := by
  unfold setBaseRow
  by_cases hc1 : (r.project == pl.project && r.pk == pl.pk) = true
  · rw [if_pos hc1]
    obtain ⟨hp, hk⟩ : r.project = pl.project ∧ r.pk = pl.pk := by simpa using hc1
    simp [isBaseOf, hp, hk]
  · rw [if_neg hc1]
    have hX : (r.project == pl.project && r.pk == pl.pk) = false :=
      Bool.eq_false_iff.mpr hc1
    rw [hX]
    by_cases hc2 : (r.project == pl.project && r.is_base_language) = true
    · rw [if_pos hc2]
      obtain ⟨hp, hb⟩ : r.project = pl.project ∧ r.is_base_language = true := by
        simpa using hc2
      simp [isBaseOf, hp]
    · rw [if_neg hc2]
      have hX2 : (r.project == pl.project && r.is_base_language) = false :=
        Bool.eq_false_iff.mpr hc2
      simp only [isBaseOf]
      exact hX2

theorem isBaseOf_setBaseRow_ne {q : Nat} {pl : PLRow} (hq : q ≠ pl.project)
    (r : PLRow) : isBaseOf q (setBaseRow pl r) = isBaseOf q r := by
  unfold setBaseRow
  by_cases hc1 : (r.project == pl.project && r.pk == pl.pk) = true
  · rw [if_pos hc1]
    obtain ⟨hp, hk⟩ : r.project = pl.project ∧ r.pk = pl.pk := by simpa using hc1
    have hrq : (r.project == q) = false := by simp [hp, Ne.symm hq]
    simp [isBaseOf, hrq]
  · rw [if_neg hc1]
    by_cases hc2 : (r.project == pl.project && r.is_base_language) = true
    · rw [if_pos hc2]
      obtain ⟨hp, hb⟩ : r.project = pl.project ∧ r.is_base_language = true := by
        simpa using hc2
      have hrq : (r.project == q) = false := by simp [hp, Ne.symm hq]
      simp [isBaseOf, hrq]
    · rw [if_neg hc2]

theorem countP_proj_pk_eq_one {pls : List PLRow} {pl : PLRow}
    (hpk : (pls.map PLRow.pk).Nodup) (hmem : pl ∈ pls) :
    pls.countP (fun r => r.project == pl.project && r.pk == pl.pk) = 1 := by
  induction pls with
  | nil => cases hmem
  | cons r rest ih =>
      rw [List.map_cons, List.nodup_cons] at hpk
      rcases List.mem_cons.mp hmem with hmr | hmr
      · rw [List.countP_cons]
        have hz : rest.countP (fun r => r.project == pl.project && r.pk == pl.pk) = 0 := by
          refine List.countP_eq_zero.mpr (fun r' hr' hc => ?_)
          simp only [Bool.and_eq_true, beq_iff_eq] at hc
          apply hpk.1
          rw [hmr] at hc
          exact hc.2 ▸ List.mem_map_of_mem PLRow.pk hr' 
        rw [hz]
        simp [← hmr]
      · rw [List.countP_cons]
        have hz : (r.project == pl.project && r.pk == pl.pk) = false := by
          have : r.pk ≠ pl.pk := by
            intro hc
            exact hpk.1 (hc ▸ List.mem_map_of_mem PLRow.pk hmr)
          simp [this]
        rw [hz]
        simp [ih hpk.2 hmr]

/-- Invariant preservation by project_language_set_base. -/
theorem set_base_preserves_invariant {pls pls' : List PLRow} {pl pl' : PLRow}
    (hinv : invariantOneBase pls)
    (hpk : (pls.map PLRow.pk).Nodup) (hmem : pl ∈ pls)
    (h : project_language_set_base pls pl = .ok (pls', pl')) :
    invariantOneBase pls' := by
  unfold project_language_set_base at h
  by_cases hb : pl.is_base_language = true
  · rw [if_pos hb] at h
    simp only [Except.ok.injEq, Prod.mk.injEq] at h
    rw [← h.1]
    exact hinv
  · rw [if_neg hb] at h
    have h' : (match (pls.map (setBaseRow pl)).find? (fun r => r.pk == pl.pk) with
        | some r => Except.ok (pls.map (setBaseRow pl), r)
        | none => (Except.error Err.doesNotExist : Except Err (List PLRow × PLRow)))
        = Except.ok (pls', pl') := h
    cases hfind : (pls.map (setBaseRow pl)).find? (fun r => r.pk == pl.pk) with
    | none => rw [hfind] at h'; exact absurd h' (by simp)
    | some r =>
        rw [hfind] at h'
        simp only [Except.ok.injEq, Prod.mk.injEq] at h'
        rw [← h'.1]
        rw [invariantOneBase_iff] at hinv ⊢
        intro q hq
        rw [hasProject_map_setBaseRow] at hq
        by_cases hqp : q = pl.project
        · rw [hqp]
          unfold baseCount
          rw [List.countP_map]
          calc pls.countP (isBaseOf pl.project ∘ setBaseRow pl)
              = pls.countP (fun r => r.project == pl.project && r.pk == pl.pk) :=
                List.countP_congr (fun r _ => by
                  simp [Function.comp, isBaseOf_setBaseRow_self])
            _ = 1 := countP_proj_pk_eq_one hpk hmem
        · unfold baseCount
          rw [List.countP_map]
          calc pls.countP (isBaseOf q ∘ setBaseRow pl)
              = pls.countP (isBaseOf q) :=
                List.countP_congr (fun r _ => by
                  simp [Function.comp, isBaseOf_setBaseRow_ne hqp])
            _ = 1 := hinv q hq

/-- Effect of the bulk creation loop on a success: base rows and rows of
other projects are untouched, the target project gains one base row per
flagged item and becomes nonempty as soon as one item is inserted. -/
theorem bulkInsertLoop_ok (project : Nat) (items : List BulkItem) :
    ∀ pls nextPk pls' next' created,
    bulkInsertLoop project items pls nextPk = .ok (pls', next', created) →
    (∀ q, q ≠ project → baseCount pls' q = baseCount pls q) ∧
    (∀ q, q ≠ project → hasProject pls' q = hasProject pls q) ∧
    baseCount pls' project
      = baseCount pls project + items.countP (fun i => i.is_base_language) ∧
    hasProject pls' project = (hasProject pls project || !items.isEmpty) := by
  induction items with
  | nil =>
      intro pls nextPk pls' next' created h
      simp only [bulkInsertLoop, Except.ok.injEq, Prod.mk.injEq] at h
      obtain ⟨h1, _, _⟩ := h
      subst h1
      refine ⟨fun q _ => rfl, fun q _ => rfl, by simp, by simp⟩
  | cons item rest ih =>
      intro pls nextPk pls' next' created h
      simp only [bulkInsertLoop] at h
      cases heq : projectLanguageFullClean pls project item.language item.is_base_language with
      | some e => rw [heq] at h; exact absurd h (by simp)
      | none =>
          rw [heq] at h
          cases hrec : bulkInsertLoop project rest
              (pls ++ [⟨nextPk, project, item.language, item.is_base_language⟩])
              (nextPk + 1) with
          | error e => rw [hrec] at h; exact absurd h (by simp [Except.map])
          | ok trip =>
              obtain ⟨a, b, c⟩ := trip
              rw [hrec] at h
              simp only [Except.map, Except.ok.injEq, Prod.mk.injEq] at h
              obtain ⟨ha, _, _⟩ := h
              subst ha
              obtain ⟨ihA, ihB, ihC, ihD⟩ := ih _ _ _ _ _ hrec
              refine ⟨?_, ?_, ?_, ?_⟩
              · intro q hq
                rw [ihA q hq, baseCount_append]
                have hz : baseCount
                    [(⟨nextPk, project, item.language, item.is_base_language⟩ : PLRow)] q
                    = 0 := by
                  simp [baseCount, List.countP_cons, isBaseOf, Ne.symm hq]
                rw [hz, Nat.add_zero]
              · intro q hq
                rw [ihB q hq, hasProject_append]
                have hz : hasProject
                    [(⟨nextPk, project, item.language, item.is_base_language⟩ : PLRow)] q
                    = false := by
                  simp [hasProject, Ne.symm hq]
                rw [hz, Bool.or_false]
              · rw [ihC, baseCount_append]
                have hone : baseCount
                    [(⟨nextPk, project, item.language, item.is_base_language⟩ : PLRow)] project
                    = (if item.is_base_language then 1 else 0) := by
                  simp [baseCount, List.countP_cons, isBaseOf]
                rw [hone, List.countP_cons]
                cases item.is_base_language
                · simp
                · simp
                  omega
              · rw [ihD, hasProject_append]
                have hone : hasProject
                    [(⟨nextPk, project, item.language, item.is_base_language⟩ : PLRow)] project
                    = true := by
                  simp [hasProject]
                rw [hone]
                simp

/-- Invariant preservation by project_language_bulk_add. -/
theorem bulk_add_preserves_invariant {pls : List PLRow} {nextPk project : Nat}
    {items : List BulkItem} {pls' : List PLRow} {next' : Nat} {created : List PLRow}
    (hinv : invariantOneBase pls)
    (h : project_language_bulk_add pls nextPk project items = .ok (pls', next', created)) :
    invariantOneBase pls' := by
  simp only [project_language_bulk_add] at h
  by_cases hgt : (items.filter (fun i => i.is_base_language)).length > 1
  · rw [if_pos hgt] at h
    exact absurd h (by simp)
  · rw [if_neg hgt] at h
    by_cases hcond : (!hasProject pls project
        && !((items.filter (fun i => i.is_base_language)).length == 1)) = true
    · rw [if_pos hcond] at h
      have hne : ((items.filter (fun i => i.is_base_language)).length == 1) = false := by
        rcases Bool.and_eq_true_iff.mp hcond with ⟨_, h2⟩
        simpa using h2
      cases items with
      | nil => exact absurd h (by simp)
      | cons item rest =>
          have hlen0 : ((item :: rest).filter (fun i => i.is_base_language)).length = 0 := by
            have h1 : ((item :: rest).filter (fun i => i.is_base_language)).length ≠ 1 := by
              simpa using hne
            omega
          have hcount : (item :: rest).countP (fun i => i.is_base_language) = 0 := by
            rw [List.countP_eq_length_filter]
            exact hlen0
          have hrest : rest.countP (fun i => i.is_base_language) = 0 := by
            rw [List.countP_cons] at hcount
            omega
          obtain ⟨lA, lB, lC, lD⟩ :=
            bulkInsertLoop_ok project ({ item with is_base_language := true } :: rest)
              _ _ _ _ _ h
          rw [invariantOneBase_iff] at hinv ⊢
          intro q hq
          by_cases hqp : q = project
          · rw [hqp, lC, baseCount_demoteBase_self, List.countP_cons]
            simp [hrest]
          · rw [lA q hqp, baseCount_demoteBase_ne hqp]
            apply hinv
            rw [lB q hqp, hasProject_demoteBase] at hq
            exact hq
    · rw [if_neg hcond] at h
      by_cases hnb : ((items.filter (fun i => i.is_base_language)).length == 1) = true
      · rw [if_pos hnb] at h
        obtain ⟨lA, lB, lC, lD⟩ := bulkInsertLoop_ok project items _ _ _ _ _ h
        have hcount1 : items.countP (fun i => i.is_base_language) = 1 := by
          rw [List.countP_eq_length_filter]
          simpa using hnb
        rw [invariantOneBase_iff] at hinv ⊢
        intro q hq
        by_cases hqp : q = project
        · rw [hqp, lC, baseCount_demoteBase_self, hcount1]
        · rw [lA q hqp, baseCount_demoteBase_ne hqp]
          apply hinv
          rw [lB q hqp, hasProject_demoteBase] at hq
          exact hq
      · have hnb' : ((items.filter (fun i => i.is_base_language)).length == 1) = false :=
          Bool.eq_false_iff.mpr hnb
        have hhp : hasProject pls project = true := by
          rcases Bool.eq_false_or_eq_true (hasProject pls project) with hc | hc
          · exact hc
          · exact absurd (by simp [hc, hnb']) hcond
        rw [if_neg hnb] at h
        obtain ⟨lA, lB, lC, lD⟩ := bulkInsertLoop_ok project items _ _ _ _ _ h
        have hcount0 : items.countP (fun i => i.is_base_language) = 0 := by
          rw [List.countP_eq_length_filter]
          have h1 : (items.filter (fun i => i.is_base_language)).length ≠ 1 := by
            simpa using hnb'
          omega
        rw [invariantOneBase_iff] at hinv ⊢
        intro q hq
        by_cases hqp : q = project
        · rw [hqp, lC, hcount0, Nat.add_zero]
          exact hinv project hhp
        · rw [lA q hqp]
          apply hinv
          rw [lB q hqp] at hq
          exact hq

/-- C1: for every project that has at least one ProjectLanguage row,
exactly one of those rows has is_base_language = true after every
successful operation: addLanguage, removeLanguage, setBaseLanguage and
bulkAddLanguages preserve the invariant, and the key and value operations
(createKey, updateKey, deleteKey, createValue, updateValue, deleteValue,
bulkUpsertValues) never touch the ProjectLanguage table. The hypotheses
ask that the stored primary keys are distinct and that the row instance
handed to removeLanguage or setBaseLanguage mirrors a stored row. -/
theorem C1_ops_preserve_single_base (op : Op) (db db' : DB)
    (hinv : invariantOneBase db.pls)
    (hpk : (db.pls.map PLRow.pk).Nodup)
    (hok : opConsistent op db)
    (hstep : step op db = .ok db') :
    invariantOneBase db'.pls := by
  cases op with
  | addLanguage project language is_base =>
      simp only [step] at hstep
      cases hres : project_language_add db.pls db.plNext project language is_base with
      | error e => rw [hres] at hstep; exact absurd hstep (by simp)
      | ok pr =>
          obtain ⟨pls', row⟩ := pr
          rw [hres] at hstep
          simp only [Except.ok.injEq] at hstep
          rw [← hstep]
          exact add_preserves_invariant hinv hres
  | removeLanguage pl =>
      simp only [step] at hstep
      cases hres : project_language_remove db.pls pl with
      | error e => rw [hres] at hstep; exact absurd hstep (by simp)
      | ok pls' =>
          rw [hres] at hstep
          simp only [Except.ok.injEq] at hstep
          rw [← hstep]
          exact remove_preserves_invariant hinv hpk hok hres
  | setBaseLanguage pl =>
      simp only [step] at hstep
      cases hres : project_language_set_base db.pls pl with
      | error e => rw [hres] at hstep; exact absurd hstep (by simp)
      | ok pr =>
          obtain ⟨pls', pl'⟩ := pr
          rw [hres] at hstep
          simp only [Except.ok.injEq] at hstep
          rw [← hstep]
          exact set_base_preserves_invariant hinv hpk hok hres
  | bulkAddLanguages project items =>
      simp only [step] at hstep
      cases hres : project_language_bulk_add db.pls db.plNext project items with
      | error e => rw [hres] at hstep; exact absurd hstep (by simp)
      | ok tr =>
          obtain ⟨pls', next', created⟩ := tr
          rw [hres] at hstep
          simp only [Except.ok.injEq] at hstep
          rw [← hstep]
          exact bulk_add_preserves_invariant hinv hres
  | createKey project key description =>
      simp only [step] at hstep
      cases hres : translation_key_create db.tks db.tkNext project key description with
      | error e => rw [hres] at hstep; exact absurd hstep (by simp)
      | ok pr =>
          obtain ⟨tks', row⟩ := pr
          rw [hres] at hstep
          simp only [Except.ok.injEq] at hstep
          rw [← hstep]
          exact hinv
  | updateKey tk key description =>
      simp only [step] at hstep
      cases hres : translation_key_update db.tks tk key description with
      | error e => rw [hres] at hstep; exact absurd hstep (by simp)
      | ok tr =>
          obtain ⟨tks', row, wrote⟩ := tr
          rw [hres] at hstep
          simp only [Except.ok.injEq] at hstep
          rw [← hstep]
          exact hinv
  | deleteKey tk =>
      simp only [step, Except.ok.injEq] at hstep
      rw [← hstep]
      exact hinv
  | createValue tk language value =>
      simp only [step] at hstep
      cases hres : translation_value_create db.pls db.tvs db.tvNext tk language value with
      | error e => rw [hres] at hstep; exact absurd hstep (by simp)
      | ok pr =>
          obtain ⟨tvs', row⟩ := pr
          rw [hres] at hstep
          simp only [Except.ok.injEq] at hstep
          rw [← hstep]
          exact hinv
  | updateValue tv value =>
      simp only [step] at hstep
      cases hres : translation_value_update db.tvs tv value with
      | error e => rw [hres] at hstep; exact absurd hstep (by simp)
      | ok pr =>
          obtain ⟨tvs', row⟩ := pr
          rw [hres] at hstep
          simp only [Except.ok.injEq] at hstep
          rw [← hstep]
          exact hinv
  | deleteValue tv =>
      simp only [step, Except.ok.injEq] at hstep
      rw [← hstep]
      exact hinv
  | bulkUpsertValues tk values_data =>
      simp only [step] at hstep
      cases hres : translation_value_bulk_update db.pls db.tvs db.tvNext tk values_data with
      | error e => rw [hres] at hstep; exact absurd hstep (by simp)
      | ok tr =>
          obtain ⟨tvs', created, updated⟩ := tr
          rw [hres] at hstep
          simp only [Except.ok.injEq] at hstep
          rw [← hstep]
          exact hinv

theorem C1_witness :
    invariantOneBase [(⟨0, 0, "en", true⟩ : PLRow)] :=
  C1_ops_preserve_single_base (.addLanguage 0 "en" false)
    ⟨[], 0, [], 0, [], 0⟩ ⟨[⟨0, 0, "en", true⟩], 1, [], 0, [], 0⟩
    (by decide) (by decide) trivial (by decide)

/-- C3: for every project with zero ProjectLanguage rows and every valid
language code, project_language_add creates a row with
is_base_language = true, regardless of the is_base_language argument. -/
theorem C3_first_language_forced_base (pls : List PLRow) (nextPk project : Nat)
    (language : String) (flag : Bool)
    (hempty : hasProject pls project = false)
    (hvalid : isValidLanguage language = true) :
    project_language_add pls nextPk project language flag
      = .ok (pls ++ [⟨nextPk, project, language, true⟩],
             ⟨nextPk, project, language, true⟩) := by
  have hdem : demoteBase pls project = pls := demoteBase_eq_self hempty
  have hdup : pls.any (fun r => r.project == project && r.language == language)
      = false := by
    refine List.any_eq_false.mpr (fun r hr => ?_)
    simp only [hasProject, List.any_eq_false] at hempty
    simp [Bool.eq_false_iff.mpr (hempty r hr)]
  have hclean : projectLanguageFullClean pls project language true = none := by
    unfold projectLanguageFullClean
    rw [if_neg (by simp [hvalid]), if_neg (by simp), if_neg (by simp [hdup])]
  simp only [project_language_add, hempty, Bool.not_false, if_true, hdem, hclean]

theorem C3_witness :
    hasProject [] 0 = false ∧ isValidLanguage "en" = true ∧
    project_language_add [] 5 0 "en" false
      = .ok ([] ++ [⟨5, 0, "en", true⟩], ⟨5, 0, "en", true⟩) :=
  ⟨rfl, by decide, C3_first_language_forced_base [] 5 0 "en" false rfl (by decide)⟩

/-- C9: project_language_bulk_add with an empty items list on a project
that has no languages raises an unguarded IndexError (from
languages_data[0]), not a ProjectError or a ValidationError. -/
theorem C9_bulk_add_empty_raises_index_error (pls : List PLRow)
    (nextPk project : Nat)
    (hempty : hasProject pls project = false) :
    project_language_bulk_add pls nextPk project [] = .error .indexError := by
  simp [project_language_bulk_add, hempty]

theorem C9_witness :
    project_language_bulk_add [] 0 7 [] = .error .indexError :=
  C9_bulk_add_empty_raises_index_error [] 0 7 rfl

/-- C10: the base-language check of project_language_remove runs before
the last-language check, so removing a row that is both the base and the
sole remaining row of its project raises the base-language ProjectError,
never the last-language one. -/
theorem C10_remove_base_checked_before_last (pls : List PLRow) (pl : PLRow)
    (hbase : pl.is_base_language = true)
    (_hsole : ∀ r ∈ pls, r.project = pl.project → r.pk = pl.pk) :
    project_language_remove pls pl = .error (.projectError baseLanguageErrMsg) := by
  simp [project_language_remove, hbase]

theorem C10_witness :
    project_language_remove [⟨1, 2, "en", true⟩] ⟨1, 2, "en", true⟩
      = .error (.projectError baseLanguageErrMsg) :=
  C10_remove_base_checked_before_last [⟨1, 2, "en", true⟩] ⟨1, 2, "en", true⟩
    rfl (by decide)

/-- C4: project_language_remove raises a ProjectError and deletes nothing
when the row is the base language of its project, and likewise when it is
the only row of its project; otherwise it deletes exactly that row. -/
theorem C4_remove_guards_and_effect (pls : List PLRow) (pl : PLRow)
    (hpk : (pls.map PLRow.pk).Nodup) (hmem : pl ∈ pls) :
    (pl.is_base_language = true →
      project_language_remove pls pl = .error (.projectError baseLanguageErrMsg) ∧
      project_language_remove_apply pls pl = pls) ∧
    (pl.is_base_language = false →
      (∀ r ∈ pls, r.project = pl.project → r.pk = pl.pk) →
      project_language_remove pls pl = .error (.projectError lastLanguageErrMsg) ∧
      project_language_remove_apply pls pl = pls) ∧
    (pl.is_base_language = false →
      (∃ r ∈ pls, r.project = pl.project ∧ r.pk ≠ pl.pk) →
      project_language_remove pls pl
        = .ok (pls.filter (fun r => r.pk != pl.pk)) ∧
      pl ∉ pls.filter (fun r => r.pk != pl.pk) ∧
      ∀ r ∈ pls, r ≠ pl → r ∈ pls.filter (fun r => r.pk != pl.pk)) := by
  refine ⟨?_, ?_, ?_⟩
  · intro hbase
    constructor
    · simp [project_language_remove, hbase]
    · simp [project_language_remove_apply, project_language_remove, hbase]
  · intro hbase hsole
    have hany : pls.any (fun r => r.project == pl.project && r.pk != pl.pk)
        = false := by
      refine List.any_eq_false.mpr (fun r hr => ?_)
      intro hc
      simp only [Bool.and_eq_true, beq_iff_eq, bne_iff_ne] at hc
      exact hc.2 (hsole r hr hc.1)
    constructor
    · simp [project_language_remove, hbase, hany]
    · simp [project_language_remove_apply, project_language_remove, hbase, hany]
  · intro hbase hex
    obtain ⟨r, hr, hrp, hrk⟩ := hex
    have hany : pls.any (fun r => r.project == pl.project && r.pk != pl.pk)
        = true :=
      List.any_eq_true.mpr ⟨r, hr, by simp [hrp, hrk]⟩
    refine ⟨by simp [project_language_remove, hbase, hany], ?_, ?_⟩
    · intro hc
      have := (List.mem_filter.mp hc).2
      simp at this
    · intro r' hr' hne
      refine List.mem_filter.mpr ⟨hr', ?_⟩
      have hkne : r'.pk ≠ pl.pk := by
        intro hk
        exact hne (List.inj_on_of_nodup_map hpk hr' hmem hk)
      simpa using hkne

theorem C4_witness :
    project_language_remove
        [⟨1, 0, "en", true⟩, ⟨2, 0, "fr", false⟩] ⟨2, 0, "fr", false⟩
      = .ok ([⟨1, 0, "en", true⟩, ⟨2, 0, "fr", false⟩].filter
          (fun r => r.pk != (⟨2, 0, "fr", false⟩ : PLRow).pk)) :=
  ((C4_remove_guards_and_effect
      [⟨1, 0, "en", true⟩, ⟨2, 0, "fr", false⟩] ⟨2, 0, "fr", false⟩
      (by decide) (by decide)).2.2 rfl
    ⟨⟨1, 0, "en", true⟩, by decide, rfl, by decide⟩).1

theorem find?_map_setBaseRow {pls : List PLRow} {pl : PLRow}
    (hpk : (pls.map PLRow.pk).Nodup) (hmem : pl ∈ pls) :
    (pls.map (setBaseRow pl)).find? (fun r => r.pk == pl.pk)
      = some (setBaseRow pl pl) := by
  induction pls with
  | nil => cases hmem
  | cons r rest ih =>
      rw [List.map_cons, List.nodup_cons] at hpk
      rcases List.mem_cons.mp hmem with hmr | hmr
      · rw [List.map_cons]
        rw [List.find?_cons_of_pos]
        · rw [hmr]
        · simp [setBaseRow_pk, hmr]
      · have hne : r.pk ≠ pl.pk := by
          intro hc
          exact hpk.1 (hc ▸ List.mem_map_of_mem PLRow.pk hmr)
        rw [List.map_cons]
        rw [List.find?_cons_of_neg]
        · exact ih hpk.2 hmr
        · simp [setBaseRow_pk, hne]

theorem setBaseRow_self (pl : PLRow) :
    setBaseRow pl pl = { pl with is_base_language := true } := by
  simp [setBaseRow]

/-- C5: project_language_set_base is idempotent: a call on a row that is
already base changes nothing, and a second call on the refreshed row of a
successful call returns the same state unchanged. -/
theorem C5_set_base_idempotent (pls : List PLRow) (pl : PLRow)
    (hpk : (pls.map PLRow.pk).Nodup) (hmem : pl ∈ pls) :
    (pl.is_base_language = true →
      project_language_set_base pls pl = .ok (pls, pl)) ∧
    (∀ pls₁ pl₁, project_language_set_base pls pl = .ok (pls₁, pl₁) →
      project_language_set_base pls₁ pl₁ = .ok (pls₁, pl₁)) := by
  constructor
  · intro hbase
    simp [project_language_set_base, hbase]
  · intro pls₁ pl₁ h
    by_cases hbase : pl.is_base_language = true
    · unfold project_language_set_base at h
      rw [if_pos hbase] at h
      simp only [Except.ok.injEq, Prod.mk.injEq] at h
      rw [← h.1, ← h.2]
      simp [project_language_set_base, hbase]
    · unfold project_language_set_base at h
      rw [if_neg hbase] at h
      have h' : (match (pls.map (setBaseRow pl)).find? (fun r => r.pk == pl.pk) with
          | some r => Except.ok (pls.map (setBaseRow pl), r)
          | none => (Except.error Err.doesNotExist : Except Err (List PLRow × PLRow)))
          = Except.ok (pls₁, pl₁) := h
      rw [find?_map_setBaseRow hpk hmem] at h'
      simp only [Except.ok.injEq, Prod.mk.injEq] at h'
      have hb1 : (setBaseRow pl pl).is_base_language = true := by
        rw [setBaseRow_self]
      rw [← h'.1, ← h'.2]
      unfold project_language_set_base
      rw [if_pos hb1]

theorem C5_witness :
    project_language_set_base
        [⟨1, 0, "en", false⟩, ⟨2, 0, "fr", true⟩] ⟨2, 0, "fr", true⟩
      = .ok ([⟨1, 0, "en", false⟩, ⟨2, 0, "fr", true⟩], ⟨2, 0, "fr", true⟩) :=
  (C5_set_base_idempotent
      [⟨1, 0, "en", true⟩, ⟨2, 0, "fr", false⟩] ⟨2, 0, "fr", false⟩
      (by decide) (by decide)).2
    [⟨1, 0, "en", false⟩, ⟨2, 0, "fr", true⟩] ⟨2, 0, "fr", true⟩ (by decide)

/-- C2 (code behaviour at the failing input): the regex of key_validator
accepts the single-segment key "flatkey" and translation_key_create
persists it, although the TranslationKey docstring and the help text of
the key field require at least two segments and forbid flat keys; the
spec key format (specKeyFormat) rejects it. -/
theorem C2_flat_key_accepted :
    key_validator "flatkey" = true ∧
    specKeyFormat "flatkey" = false ∧
    translation_key_create [] 0 7 "flatkey" ""
      = .ok ([⟨0, 7, "flatkey", ""⟩], ⟨0, 7, "flatkey", ""⟩) :=
  ⟨by decide, by decide, by decide⟩

theorem mem_insertSorted {s a : String} {l : List String} :
    a ∈ insertSorted s l ↔ a = s ∨ a ∈ l := by
  induction l with
  | nil => simp [insertSorted]
  | cons t ts ih =>
      unfold insertSorted
      by_cases h : pyStrLe s t = true
      · simp [h]
      · rw [if_neg h]
        simp only [List.mem_cons, ih]
        tauto

theorem mem_sortStrings {a : String} {l : List String} :
    a ∈ sortStrings l ↔ a ∈ l := by
  induction l with
  | nil => simp [sortStrings]
  | cons x xs ih =>
      show a ∈ insertSorted x (sortStrings xs) ↔ a ∈ x :: xs
      rw [mem_insertSorted, List.mem_cons, ih]

theorem mem_sortedDedup {a : String} {l : List String} :
    a ∈ sortedDedup l ↔ a ∈ l := by
  rw [sortedDedup, mem_sortStrings, List.mem_dedup]

/-- C6: translation_value_bulk_update with at least one requested language
not configured for the key project fails with a TranslationError listing
exactly the invalid codes, and writes nothing: the value table is left
unchanged, including for the items whose languages were valid. -/
theorem C6_bulk_upsert_invalid_language_atomic
    (pls : List PLRow) (tvs : List TVRow) (nextPk : Nat) (tk : TKRow)
    (values_data : List (String × String))
    (hbad : ∃ p ∈ values_data, configuredLanguage pls tk.project p.1 = false) :
    (∃ invalid, invalid ≠ [] ∧
      translation_value_bulk_update pls tvs nextPk tk values_data
        = .error (.translationError someNotConfiguredMsg invalid) ∧
      ∀ l, l ∈ invalid ↔
        (l ∈ values_data.map Prod.fst ∧
          configuredLanguage pls tk.project l = false)) ∧
    translation_value_bulk_apply pls tvs nextPk tk values_data = tvs := by
  have hmem : ∀ l, l ∈ sortedDedup ((values_data.map Prod.fst).filter
      (fun l => !configuredLanguage pls tk.project l)) ↔
      (l ∈ values_data.map Prod.fst ∧
        configuredLanguage pls tk.project l = false) := by
    intro l
    rw [mem_sortedDedup, List.mem_filter]
    simp
  have hne : sortedDedup ((values_data.map Prod.fst).filter
      (fun l => !configuredLanguage pls tk.project l)) ≠ [] := by
    obtain ⟨p, hp, hc⟩ := hbad
    intro hcon
    have hin : p.1 ∈ sortedDedup ((values_data.map Prod.fst).filter
        (fun l => !configuredLanguage pls tk.project l)) :=
      (hmem p.1).mpr ⟨List.mem_map_of_mem Prod.fst hp, hc⟩
    rw [hcon] at hin
    cases hin
  have hempty : (sortedDedup ((values_data.map Prod.fst).filter
      (fun l => !configuredLanguage pls tk.project l))).isEmpty = false := by
    cases hh : sortedDedup ((values_data.map Prod.fst).filter
        (fun l => !configuredLanguage pls tk.project l)) with
    | nil => exact absurd hh hne
    | cons a l => rfl
  have heq : translation_value_bulk_update pls tvs nextPk tk values_data
      = .error (.translationError someNotConfiguredMsg
          (sortedDedup ((values_data.map Prod.fst).filter
            (fun l => !configuredLanguage pls tk.project l)))) := by
    simp only [translation_value_bulk_update, hempty, Bool.not_false, if_true]
  refine ⟨⟨_, hne, heq, hmem⟩, ?_⟩
  unfold translation_value_bulk_apply
  rw [heq]

theorem C6_witness :
    translation_value_bulk_apply [⟨0, 7, "en", true⟩] [] 0 ⟨0, 7, "app.title", ""⟩
        [("en", "Hi"), ("de", "Hallo")] = [] :=
  (C6_bulk_upsert_invalid_language_atomic [⟨0, 7, "en", true⟩] [] 0
      ⟨0, 7, "app.title", ""⟩ [("en", "Hi"), ("de", "Hallo")]
      ⟨("de", "Hallo"), by decide, by decide⟩).2

/-- C7 counterexample: "en" is configured for the project of the key and
no (key, "en") row exists, yet translation_value_create with the empty
string as value raises a ValidationError (TextField blank check inside
full_clean) and creates no row, so the unamended claim fails here. -/
theorem C7_counterexample_blank_value :
    translation_value_create [⟨0, 7, "en", true⟩] [] 0 ⟨0, 7, "app.title", ""⟩ "en" ""
      = .error (.validation "This field cannot be blank.") := by decide

/-- C7 (amended): translation_value_create for a language that is not
configured for the key project fails with a TranslationError and creates
no row; for a configured, catalog-valid language with a nonempty value and
no existing (key, language) row it creates exactly that one row. -/
theorem C7_create_value_language_guard
    (pls : List PLRow) (tvs : List TVRow) (nextPk : Nat) (tk : TKRow)
    (language value : String) :
    (configuredLanguage pls tk.project language = false →
      translation_value_create pls tvs nextPk tk language value
        = .error (.translationError notConfiguredMsg [language]) ∧
      translation_value_create_apply pls tvs nextPk tk language value = tvs) ∧
    (configuredLanguage pls tk.project language = true →
      isValidLanguage language = true →
      value ≠ "" →
      tvs.any (fun r => r.translation_key == tk.pk && r.language == language)
        = false →
      translation_value_create pls tvs nextPk tk language value
        = .ok (tvs ++ [⟨nextPk, tk.pk, language, value⟩],
               ⟨nextPk, tk.pk, language, value⟩)) := by
  constructor
  · intro hc
    constructor
    · simp [translation_value_create, hc]
    · simp [translation_value_create_apply, translation_value_create, hc]
  · intro hc hvalid hval hdup
    have hdup' : tvs.any (fun r =>
        r.pk != nextPk && r.translation_key == tk.pk && r.language == language)
        = false := by
      rw [List.any_eq_false] at hdup ⊢
      intro r hr hcontra
      apply hdup r hr
      simp only [Bool.and_eq_true] at hcontra ⊢
      exact ⟨hcontra.1.2, hcontra.2⟩
    have hclean : translationValueFullClean tvs nextPk tk.pk language value
        = none := by
      unfold translationValueFullClean
      rw [if_neg (by simp [hvalid]), if_neg (by simp [hval]),
        if_neg (by simp [hdup'])]
    simp only [translation_value_create, hc, Bool.not_true, Bool.false_eq_true,
      if_false, hclean]

theorem C7_witness :
    translation_value_create [⟨0, 7, "en", true⟩] [] 0 ⟨1, 7, "app.title", ""⟩
        "en" "Hello"
      = .ok ([] ++ [⟨0, 1, "en", "Hello"⟩], ⟨0, 1, "en", "Hello"⟩) :=
  (C7_create_value_language_guard [⟨0, 7, "en", true⟩] [] 0
      ⟨1, 7, "app.title", ""⟩ "en" "Hello").2
    (by decide) (by decide) (by decide) rfl

/-- C8: project_update changes only the supplied fields: every field
passed as None keeps its previous value, and with no field supplied the
operation performs no write (wrote = false) and returns the project
unchanged. -/
theorem C8_project_update_only_supplied (projects : List Project) (p : Project) :
    (project_update projects p none none none = .ok (p, false)) ∧
    (∀ slug name description p' wrote,
      project_update projects p slug name description = .ok (p', wrote) →
      p'.pk = p.pk ∧
      (slug = none → p'.slug = p.slug) ∧
      (name = none → p'.name = p.name) ∧
      (description = none → p'.description = p.description)) := by
  constructor
  · simp [project_update]
  · intro slug name description p' wrote h
    unfold project_update at h
    by_cases hcond : (slug.isNone && name.isNone && description.isNone) = true
    · rw [if_pos hcond] at h
      simp only [Except.ok.injEq, Prod.mk.injEq] at h
      rw [← h.1]
      exact ⟨rfl, fun _ => rfl, fun _ => rfl, fun _ => rfl⟩
    · rw [if_neg hcond] at h
      cases hfc : projectFullClean projects
          (applyProjectUpdates p slug name description) with
      | some e => rw [hfc] at h; exact absurd h (by simp)
      | none =>
          rw [hfc] at h
          simp only [Except.ok.injEq, Prod.mk.injEq] at h
          rw [← h.1]
          refine ⟨rfl, ?_, ?_, ?_⟩
          · intro hs
            rw [hs]
            rfl
          · intro hn
            rw [hn]
            rfl
          · intro hd
            rw [hd]
            rfl

theorem C8_witness :
    project_update [] ⟨0, "proj", "Proj", ""⟩ none none none
      = .ok (⟨0, "proj", "Proj", ""⟩, false) ∧
    (⟨0, "new-slug", "Proj", ""⟩ : Project).name
      = (⟨0, "proj", "Proj", ""⟩ : Project).name :=
  ⟨(C8_project_update_only_supplied [] ⟨0, "proj", "Proj", ""⟩).1,
   ((C8_project_update_only_supplied [] ⟨0, "proj", "Proj", ""⟩).2
      (some "new-slug") none none ⟨0, "new-slug", "Proj", ""⟩ true
      (by decide)).2.2.1 rfl⟩

end TMS
